import Mathlib

/-!
Verification of the tennis-club tournament engine (src/streamlit_app.py).

The Python source is shallowly embedded below.  Player names are `String`,
Python dicts keyed by round size are association lists with dict-faithful
get/set semantics, the cumulative rankings dict is a function
`String → Option Nat`, and the Streamlit session state machine of
`page_tournament` is an inductive reachability relation whose transitions
mirror one script run each (a click handler immediately triggers a rerun,
so the round-completion check at line 376 is skipped on click runs).
-/

namespace Tennis

/-! ## Dict helpers (Python dict semantics on association lists) -/

/-- Lookup in an association list keyed by `Nat`: first (and, for dicts,
only) binding wins, mirroring `d[k]` / `d.get(k)`. -/
def dget : List (Nat × List String) → Nat → Option (List String)
  | [], _ => none
  | (k, v) :: rest, key => if k = key then some v else dget rest key

/-- Assignment `d[k] = v` on a Python dict: an existing binding is updated
in place, a new key is appended at the end (dicts preserve insertion
order, which matters because settlement iterates `rounds.items()`). -/
def dset (d : List (Nat × List String)) (k : Nat) (v : List String) :
    List (Nat × List String) :=
  if (dget d k).isSome then
    d.map (fun kv => if kv.1 = k then (k, v) else kv)
  else d ++ [(k, v)]

/-- Lookup in a `String`-keyed association list, used for the per-tier
points maps (`points_map.get(key, 0)` becomes `(alist_get pm key).getD 0`). -/
def alist_get : List (String × Nat) → String → Option Nat
  | [], _ => none
  | (k, v) :: rest, key => if k = key then some v else alist_get rest key

/-! ## `get_next_power_of_two` (src line 65-67)

The Python computes `2 ** math.ceil(math.log2(n))` (and `1` for `n = 0`).
The float `math.log2` is modelled as an exact ceiling base-2 logarithm,
computed by the fuel-based structural recursion `clog2` below so that it
evaluates inside the kernel. -/

/-- Ceiling base-2 logarithm, fuelled so that it is structurally
recursive: `clog2Aux fuel n` is the ceiling log once `n ≤ fuel`. -/
def clog2Aux : Nat → Nat → Nat
  | 0, _ => 0
  | fuel + 1, n => if n ≤ 1 then 0 else clog2Aux fuel ((n + 1) / 2) + 1

/-- Ceiling base-2 logarithm of `n`. -/
def clog2 (n : Nat) : Nat := clog2Aux n n

theorem clog2Aux_le_pow : ∀ fuel n, n ≤ fuel → n ≤ 2 ^ clog2Aux fuel n := by
  intro fuel
  induction fuel with
  | zero => intro n hn; interval_cases n <;> simp [clog2Aux]
  | succ f ih =>
    intro n hn
    by_cases h1 : n ≤ 1
    · simp only [clog2Aux, h1, if_true, pow_zero]
    · have hrec : (n + 1) / 2 ≤ f := by omega
      have := ih ((n + 1) / 2) hrec
      simp only [clog2Aux, h1, if_false]
      have hpow : 2 ^ (clog2Aux f ((n + 1) / 2) + 1) =
          2 * 2 ^ clog2Aux f ((n + 1) / 2) := by ring
      omega

theorem clog2Aux_min : ∀ fuel n k, n ≤ fuel → n ≤ 2 ^ k →
    clog2Aux fuel n ≤ k := by
  intro fuel
  induction fuel with
  | zero => intro n k hn _; interval_cases n <;> simp [clog2Aux]
  | succ f ih =>
    intro n k hn hk
    by_cases h1 : n ≤ 1
    · simp [clog2Aux, h1]
    · simp only [clog2Aux, h1, if_false]
      have hk1 : 1 ≤ k := by
        by_contra hlt
        have : k = 0 := by omega
        subst this
        simp at hk
        omega
      have hk2 : (n + 1) / 2 ≤ 2 ^ (k - 1) := by
        have hsplit : 2 ^ k = 2 * 2 ^ (k - 1) := by
          conv_lhs => rw [show k = (k - 1) + 1 from by omega]
          rw [pow_succ]
          ring
        omega
      have := ih ((n + 1) / 2) (k - 1) (by omega) hk2
      omega

theorem clog2_le_pow (n : Nat) : n ≤ 2 ^ clog2 n :=
  clog2Aux_le_pow n n le_rfl

theorem clog2_min (n k : Nat) (h : n ≤ 2 ^ k) : clog2 n ≤ k :=
  clog2Aux_min n n k le_rfl h

theorem clog2_pos (n : Nat) (h : 2 ≤ n) : 1 ≤ clog2 n := by
  by_contra h0
  have hz : clog2 n = 0 := by omega
  have hle := clog2_le_pow n
  rw [hz, pow_zero] at hle
  omega

/-- src line 65-67: smallest power of two that is at least `n`
(modelled with exact logarithm, see above). -/
def get_next_power_of_two (n : Nat) : Nat :=
  if n = 0 then 1 else 2 ^ clog2 n

/-! ## `create_seeded_bracket` (src lines 69-86) -/

/-- The head/tail pairing loop of `create_seeded_bracket`
(lines 79-84): while `head < tail`, emit `(l[head], l[tail])` and move
both indices inward.  Fuelled so that the recursion is structural and the
kernel can evaluate it; `tail - head` fuel is always enough. -/
def pairLoopAux : Nat → List String → Nat → Nat → List (String × String)
  | 0, _, _, _ => []
  | fuel + 1, l, head, tail =>
    if head < tail then
      (l.getD head "", l.getD tail "") :: pairLoopAux fuel l (head + 1) (tail - 1)
    else []

/-- The head/tail pairing loop with its fuel instantiated. -/
def pairLoop (l : List String) (head tail : Nat) : List (String × String) :=
  pairLoopAux (tail - head) l head tail

/-- src lines 69-86: returns `(matches, byes, bracket_size)`.  The first
`bracket_size - num_players` seeds get byes, the remaining players are
paired first-against-last by the head/tail loop. -/
def create_seeded_bracket (players : List String) :
    List (String × String) × List String × Nat :=
  let num_players := players.length
  let bracket_size := get_next_power_of_two num_players
  let num_byes := bracket_size - num_players
  let byes := players.take num_byes
  let players_in_first_round := players.drop num_byes
  (pairLoop players_in_first_round 0 (players_in_first_round.length - 1),
   byes, bracket_size)

theorem pairLoopAux_length (l : List String) :
    ∀ fuel head tail, tail - head ≤ fuel →
      (pairLoopAux fuel l head tail).length = (tail - head + 1) / 2 := by
  intro fuel
  induction fuel with
  | zero =>
    intro head tail ht
    simp only [pairLoopAux, List.length_nil]
    omega
  | succ f ih =>
    intro head tail ht
    by_cases h : head < tail
    · simp only [pairLoopAux, if_pos h, List.length_cons]
      rw [ih (head + 1) (tail - 1) (by omega)]
      omega
    · simp only [pairLoopAux, if_neg h, List.length_nil]
      omega

theorem pairLoop_length (l : List String) (head tail : Nat) :
    (pairLoop l head tail).length = (tail - head + 1) / 2 :=
  pairLoopAux_length l (tail - head) head tail le_rfl

theorem pairLoopAux_getD (l : List String) :
    ∀ k fuel head tail, head + 2 * k < tail → tail - head ≤ fuel →
      (pairLoopAux fuel l head tail).getD k ("", "") =
        (l.getD (head + k) "", l.getD (tail - k) "") := by
  intro k
  induction k with
  | zero =>
    intro fuel head tail hk hf
    match fuel with
    | 0 => omega
    | f + 1 =>
      simp only [pairLoopAux, if_pos (by omega : head < tail)]
      simp
  | succ k ih =>
    intro fuel head tail hk hf
    match fuel with
    | 0 => omega
    | f + 1 =>
      simp only [pairLoopAux, if_pos (by omega : head < tail),
        List.getD_cons_succ]
      rw [ih f (head + 1) (tail - 1) (by omega) (by omega)]
      congr 2 <;> omega

theorem pairLoop_getD (l : List String) (k head tail : Nat)
    (hk : head + 2 * k < tail) :
    (pairLoop l head tail).getD k ("", "") =
      (l.getD (head + k) "", l.getD (tail - k) "") :=
  pairLoopAux_getD l k (tail - head) head tail hk le_rfl

theorem get_next_power_of_two_spec (n : Nat) (h1 : 1 ≤ n) :
    n ≤ get_next_power_of_two n ∧
    (∃ k, get_next_power_of_two n = 2 ^ k) ∧
    (∀ b, n ≤ 2 ^ b → get_next_power_of_two n ≤ 2 ^ b) := by
  unfold get_next_power_of_two
  rw [if_neg (by omega)]
  refine ⟨clog2_le_pow n, ⟨clog2 n, rfl⟩, fun b hb => ?_⟩
  exact Nat.pow_le_pow_right (by norm_num) (clog2_min n b hb)

theorem get_next_power_of_two_lt (n : Nat) (h2 : 2 ≤ n) :
    get_next_power_of_two n < 2 * n := by
  unfold get_next_power_of_two
  rw [if_neg (by omega)]
  have hpos := clog2_pos n h2
  have hlt : 2 ^ (clog2 n - 1) < n := by
    by_contra hge
    have := clog2_min n (clog2 n - 1) (by omega)
    omega
  calc 2 ^ clog2 n = 2 * 2 ^ (clog2 n - 1) := by
        conv_lhs => rw [show clog2 n = (clog2 n - 1) + 1 from by omega]
        rw [pow_succ]; ring
    _ < 2 * n := by omega

theorem get_next_power_of_two_even (n : Nat) (h2 : 2 ≤ n) :
    get_next_power_of_two n % 2 = 0 := by
  unfold get_next_power_of_two
  rw [if_neg (by omega)]
  have hpos := clog2_pos n h2
  conv_lhs => rw [show clog2 n = (clog2 n - 1) + 1 from by omega, pow_succ]
  omega

/-- Bundled facts about the three outputs of `create_seeded_bracket` used
by several claims: with `n := ps.length`, `bs := bracket size`,
`rest := ps.drop (bs - n)`, we have `n ≤ bs < 2 * n`, `bs` even,
byes of length `bs - n` and `rest.length / 2` matches. -/
theorem create_seeded_bracket_shape (ps : List String) (h2 : 2 ≤ ps.length) :
    ps.length ≤ (create_seeded_bracket ps).2.2 ∧
    (create_seeded_bracket ps).2.2 < 2 * ps.length ∧
    (create_seeded_bracket ps).2.2 % 2 = 0 ∧
    (create_seeded_bracket ps).2.1.length =
      (create_seeded_bracket ps).2.2 - ps.length ∧
    (create_seeded_bracket ps).1.length =
      (ps.length - ((create_seeded_bracket ps).2.2 - ps.length)) / 2 := by
  have hspec := get_next_power_of_two_spec ps.length (by omega)
  have hlt := get_next_power_of_two_lt ps.length h2
  have heven := get_next_power_of_two_even ps.length h2
  simp only [create_seeded_bracket]
  refine ⟨hspec.1, hlt, heven, ?_, ?_⟩
  · rw [List.length_take]
    omega
  · rw [pairLoop_length, List.length_drop]
    omega

/-- Claim C4: for every ordered list of at least two distinct players,
`create_seeded_bracket` returns the smallest power of two at least `N` as
bracket size, the first `bracketSize - N` seeds (in order) as byes, and
matches that pair the remaining players by reflection:
`matches[i] = (rest[i], rest[len(rest) - 1 - i])` for `i < len(rest) / 2`.
(The float `math.log2` of the source is modelled as an exact logarithm;
the two computations agree for every realistic roster size.) -/
theorem c4_bracket_construction (ps : List String) (h2 : 2 ≤ ps.length)
    (hnd : ps.Nodup) :
    (ps.length ≤ (create_seeded_bracket ps).2.2 ∧
      (∃ k, (create_seeded_bracket ps).2.2 = 2 ^ k) ∧
      (∀ b, ps.length ≤ 2 ^ b → (create_seeded_bracket ps).2.2 ≤ 2 ^ b)) ∧
    (create_seeded_bracket ps).2.1 =
      ps.take ((create_seeded_bracket ps).2.2 - ps.length) ∧
    ((create_seeded_bracket ps).1.length =
      (ps.drop ((create_seeded_bracket ps).2.2 - ps.length)).length / 2 ∧
    ∀ i, i < (ps.drop ((create_seeded_bracket ps).2.2 - ps.length)).length / 2 →
      (create_seeded_bracket ps).1.getD i ("", "") =
        ((ps.drop ((create_seeded_bracket ps).2.2 - ps.length)).getD i "",
         (ps.drop ((create_seeded_bracket ps).2.2 - ps.length)).getD
           ((ps.drop ((create_seeded_bracket ps).2.2 - ps.length)).length - 1 - i)
           "")) := by
  have hspec := get_next_power_of_two_spec ps.length (by omega)
  have hlt := get_next_power_of_two_lt ps.length h2
  have heven := get_next_power_of_two_even ps.length h2
  have hbs : (create_seeded_bracket ps).2.2 = get_next_power_of_two ps.length := by
    simp [create_seeded_bracket]
  refine ⟨by rw [hbs]; exact hspec, ?_, ?_, ?_⟩
  · simp [create_seeded_bracket]
  · rw [hbs]
    simp only [create_seeded_bracket]
    rw [pairLoop_length, List.length_drop]
    omega
  · intro i hi
    rw [hbs] at hi ⊢
    simp only [create_seeded_bracket]
    set n := ps.length with hn
    set bs := get_next_power_of_two n with hbsdef
    rw [List.length_drop] at hi
    have hcond : 0 + 2 * i < (ps.drop (bs - n)).length - 1 := by
      rw [List.length_drop]
      omega
    rw [pairLoop_getD (ps.drop (bs - n)) i 0 ((ps.drop (bs - n)).length - 1)
      hcond]
    rw [Nat.zero_add]

/-- Claim C8 (amended): for all rosters of at least two players,
`len(byes) + 2 * len(matches)` equals the number of players `N`, and
`2 * (len(byes) + len(matches))` equals the bracket size; the equation of
the claim, `len(byes) + 2 * len(matches) == bracketSize`, holds only when
`N` is itself a power of two. -/
theorem c8_amended (ps : List String) (h2 : 2 ≤ ps.length) :
    (create_seeded_bracket ps).2.1.length +
        2 * (create_seeded_bracket ps).1.length = ps.length ∧
    2 * ((create_seeded_bracket ps).2.1.length +
        (create_seeded_bracket ps).1.length) =
      (create_seeded_bracket ps).2.2 := by
  obtain ⟨hle, hlt, heven, hbyes, hms⟩ := create_seeded_bracket_shape ps h2
  omega

/-- Claim C8 counterexample: with five seeds the bracket size is 8, yet
`len(byes) + 2 * len(matches) = 3 + 2 * 1 = 5 ≠ 8`. -/
theorem c8_counterexample :
    (create_seeded_bracket ["P1", "P2", "P3", "P4", "P5"]).2.1.length +
        2 * (create_seeded_bracket ["P1", "P2", "P3", "P4", "P5"]).1.length = 5 ∧
    (create_seeded_bracket ["P1", "P2", "P3", "P4", "P5"]).2.2 = 8 ∧
    (5 : Nat) ≠ 8 :=
  ⟨rfl, rfl, by decide⟩

/-- Claim C4 witness: the theorem applied to the concrete seed list
`[P1, P2, P3]` (bracket size 4, one bye, one match `(P2, P3)`). -/
theorem c4_witness :
    (2 ≤ (["P1", "P2", "P3"] : List String).length) ∧
    ((["P1", "P2", "P3"] : List String).length ≤
        (create_seeded_bracket ["P1", "P2", "P3"]).2.2 ∧
      (∃ k, (create_seeded_bracket ["P1", "P2", "P3"]).2.2 = 2 ^ k) ∧
      (∀ b, (["P1", "P2", "P3"] : List String).length ≤ 2 ^ b →
        (create_seeded_bracket ["P1", "P2", "P3"]).2.2 ≤ 2 ^ b)) ∧
    (create_seeded_bracket ["P1", "P2", "P3"]).2.1 =
      (["P1", "P2", "P3"] : List String).take
        ((create_seeded_bracket ["P1", "P2", "P3"]).2.2 -
          (["P1", "P2", "P3"] : List String).length) := by
  refine ⟨by decide, ?_⟩
  have h := c4_bracket_construction ["P1", "P2", "P3"] (by decide) (by decide)
  exact ⟨h.1, h.2.1⟩

/-- Claim C8 witness: the amended theorem applied to the concrete seed
list `[P1, P2, P3, P4, P5]`. -/
theorem c8_amended_witness :
    (2 ≤ (["P1", "P2", "P3", "P4", "P5"] : List String).length) ∧
    ((create_seeded_bracket ["P1", "P2", "P3", "P4", "P5"]).2.1.length +
        2 * (create_seeded_bracket ["P1", "P2", "P3", "P4", "P5"]).1.length =
      (["P1", "P2", "P3", "P4", "P5"] : List String).length ∧
    2 * ((create_seeded_bracket ["P1", "P2", "P3", "P4", "P5"]).2.1.length +
        (create_seeded_bracket ["P1", "P2", "P3", "P4", "P5"]).1.length) =
      (create_seeded_bracket ["P1", "P2", "P3", "P4", "P5"]).2.2) :=
  ⟨by decide, c8_amended ["P1", "P2", "P3", "P4", "P5"] (by decide)⟩

/-- src line 324: the setup page only enables the start button when at
least two names were entered (`disabled=len(players) < 2`); this is the
only guard against small rosters, and there is no duplicate check at all. -/
def setup_start_enabled (players : List String) : Bool :=
  !(players.length < 2)

/-- Claim C5 counterexample: `create_seeded_bracket` performs no input
validation.  On the duplicated seed list `["A", "A"]` it raises no
`DuplicateParticipant` error; it happily builds a bracket in which player
`A` is paired against themselves, and on the singleton list `["A"]` it
returns a trivial bracket instead of an `InsufficientParticipants` error. -/
theorem c5_counterexample :
    create_seeded_bracket ["A", "A"] = ([("A", "A")], [], 2) ∧
    create_seeded_bracket ["A"] = ([], [], 1) := by
  constructor <;> rfl

/-- Claim C5 (amended): rosters of fewer than two players are prevented
upstream by the setup page, whose start button is disabled exactly when
`len(players) < 2`; `create_seeded_bracket` itself raises no error for
any input, and duplicate ids are not rejected anywhere (the function
accepts a duplicated seed list and can pair a player against themselves,
as the counterexample shows). -/
theorem c5_amended (ps : List String) :
    (setup_start_enabled ps = true ↔ 2 ≤ ps.length) ∧
    create_seeded_bracket ["A", "A"] = ([("A", "A")], [], 2) := by
  refine ⟨?_, rfl⟩
  simp only [setup_start_enabled, Bool.not_eq_true', decide_eq_false_iff_not,
    not_lt]

/-! ## Tournament session state (`page_tournament`, src lines 295-401)

One `TData` value models `st.session_state.tournament_data`.  Each
transition of the `Reach` relation models one Streamlit script run of the
playing step: every run first walks `current_round_players` two at a time
(lines 352-361), appending the trailing unpaired player (if any) to the
winners list and collecting the still-undecided adjacent pairs as
`matches_to_play`; a click on a result button appends the chosen winner
and immediately reruns (so the completion check of line 376 is skipped on
that run); a run without a click either advances the round when
`len(winners) == round_num // 2` or leaves the state (bye appends
included, since the list is mutated in place) as it is. -/

structure TData where
  bracket_size : Nat
  initial_players : List String
  rounds : List (Nat × List String)
  match_list : List (String × String)
  byes : List String
  current_round_players : List String
  winners : List (Nat × List String)
deriving DecidableEq, Repr

/-- src lines 352-359: the trailing unpaired player of an odd-length round
is appended to the winners list on every render. -/
def bye_winners : List String → List String
  | [] => []
  | [p] => [p]
  | _ :: _ :: rest => bye_winners rest

/-- src lines 352-361: the adjacent pairs of `current_round_players` in
which neither player is already recorded as a winner. -/
def matches_to_play (winners : List String) : List String → List (String × String)
  | [] => []
  | [_] => []
  | p1 :: p2 :: rest =>
    (if p1 ∉ winners ∧ p2 ∉ winners then [(p1, p2)] else []) ++
      matches_to_play winners rest

/-- src lines 326-333: the session state created by the
"generate bracket and start" button (the Python dict key "matches" is
the field `match_list`); note line 332 merges the byes with the
flattened match players into `current_round_players`. -/
def start_tournament (players : List String) : TData :=
  let res := create_seeded_bracket players
  { bracket_size := res.2.2,
    initial_players := players,
    rounds := [(res.2.2, players)],
    match_list := res.1,
    byes := res.2.1,
    current_round_players := res.2.1 ++ res.1.flatMap (fun m => [m.1, m.2]),
    winners := [] }

/-- src line 349: `data.setdefault("winners", {}).get(str(round_num), [])`. -/
def wcur (d : TData) : List String :=
  (dget d.winners d.current_round_players.length).getD []

/-- The winners list at the end of the pair-walking loop of a render:
the stored list plus the bye append of this run (lines 352-359). -/
def byes_applied (d : TData) : List String :=
  wcur d ++ bye_winners d.current_round_players

/-- src lines 366-373: a result-button click appends the chosen winner
(after the bye append of the same run) and stores the list. -/
def clickStep (d : TData) (w : String) : TData :=
  let rn := d.current_round_players.length
  { d with winners := dset d.winners rn (byes_applied d ++ [w]) }

/-- src lines 376-380: when `len(winners) == round_num // 2`, the next
round starts from a copy of the winners list. -/
def advanceStep (d : TData) : TData :=
  let w1 := byes_applied d
  { d with winners := dset d.winners d.current_round_players.length w1,
           rounds := dset d.rounds w1.length w1,
           current_round_players := w1 }

/-- A render without click or completion only persists the in-place bye
append. -/
def idleStep (d : TData) : TData :=
  let rn := d.current_round_players.length
  { d with winners := dset d.winners rn (byes_applied d) }

/-- Reachable session states of `page_tournament`.  The playing-step
transitions require at least two players in the current round (lines
341-344 switch to the finished step before rendering otherwise), and a
click is only possible for a pair that has a rendered button, that is,
a member of `matches_to_play`. -/
inductive Reach : TData → Prop where
  | start (players : List String) :
      2 ≤ players.length → Reach (start_tournament players)
  | click (d : TData) (p1 p2 w : String) : Reach d →
      2 ≤ d.current_round_players.length →
      (p1, p2) ∈ matches_to_play (wcur d) d.current_round_players →
      (w = p1 ∨ w = p2) →
      Reach (clickStep d w)
  | advance (d : TData) : Reach d →
      2 ≤ d.current_round_players.length →
      (byes_applied d).length = d.current_round_players.length / 2 →
      Reach (advanceStep d)
  | idle (d : TData) : Reach d →
      2 ≤ d.current_round_players.length →
      (byes_applied d).length ≠ d.current_round_players.length / 2 →
      Reach (idleStep d)

/-- src lines 341-344: the playing step ends when at most one player is
left in the current round. -/
def Terminal (d : TData) : Prop := d.current_round_players.length ≤ 1

instance (d : TData) : Decidable (Terminal d) :=
  inferInstanceAs (Decidable (_ ≤ _))

theorem bye_winners_subset : ∀ l x, x ∈ bye_winners l → x ∈ l := by
  intro l
  induction l using bye_winners.induct with
  | case1 => intro x hx; simp [bye_winners] at hx
  | case2 p => intro x hx; simp [bye_winners] at hx; simp [hx]
  | case3 p1 p2 rest ih =>
    intro x hx
    simp only [bye_winners] at hx
    have := ih x hx
    simp [this]

theorem matches_to_play_mem : ∀ w l p1 p2,
    (p1, p2) ∈ matches_to_play w l → p1 ∈ l ∧ p2 ∈ l := by
  intro w l
  induction l using matches_to_play.induct w with
  | case1 => intro p1 p2 h; simp [matches_to_play] at h
  | case2 p => intro p1 p2 h; simp [matches_to_play] at h
  | case3 q1 q2 rest ih =>
    intro p1 p2 h
    simp only [matches_to_play, List.mem_append] at h
    rcases h with h | h
    · by_cases hc : q1 ∉ w ∧ q2 ∉ w
      · rw [if_pos hc] at h
        simp at h
        simp [h]
      · rw [if_neg hc] at h
        simp at h
    · have := ih p1 p2 h
      constructor <;> simp [this.1, this.2]

theorem matches_to_play_not_decided : ∀ w l p1 p2,
    p1 ∈ w ∨ p2 ∈ w → (p1, p2) ∉ matches_to_play w l := by
  intro w l
  induction l using matches_to_play.induct w with
  | case1 => intro p1 p2 _; simp [matches_to_play]
  | case2 p => intro p1 p2 _; simp [matches_to_play]
  | case3 q1 q2 rest ih =>
    intro p1 p2 hd
    simp only [matches_to_play, List.mem_append]
    push_neg
    refine ⟨?_, ih p1 p2 hd⟩
    by_cases hc : q1 ∉ w ∧ q2 ∉ w
    · rw [if_pos hc]
      intro hmem
      simp at hmem
      rcases hd with hd | hd
      · exact hc.1 (hmem.1 ▸ hd)
      · exact hc.2 (hmem.2 ▸ hd)
    · rw [if_neg hc]
      simp

theorem dget_map_update (d : List (Nat × List String)) (k : Nat)
    (v : List String) (key : Nat) :
    dget (d.map (fun kv => if kv.1 = k then (k, v) else kv)) key =
      if key = k then (dget d k).map (fun _ => v) else dget d key := by
  induction d with
  | nil => by_cases h : key = k <;> simp [dget, h]
  | cons kv rest ih =>
    obtain ⟨k1, v1⟩ := kv
    by_cases hk : k1 = k
    · have hhead : (if (k1, v1).1 = k then (k, v) else (k1, v1)) =
          ((k, v) : Nat × List String) := by
        simp [hk]
      rw [List.map_cons, hhead]
      subst hk
      by_cases hkey : key = k1
      · subst hkey
        simp [dget]
      · have hne1 : ¬(k1 = key) := fun h => hkey h.symm
        simp only [dget, if_neg hne1, ih, if_neg hkey]
    · have hhead : (if (k1, v1).1 = k then (k, v) else (k1, v1)) =
          ((k1, v1) : Nat × List String) := by
        simp [hk]
      rw [List.map_cons, hhead]
      by_cases hkey : k1 = key
      · have hne : ¬(key = k) := fun h => hk (hkey.trans h)
        simp only [dget, if_pos hkey, if_neg hne]
      · simp only [dget, if_neg hkey, if_neg hk, ih]

theorem dget_append (d1 d2 : List (Nat × List String)) (key : Nat) :
    dget (d1 ++ d2) key =
      match dget d1 key with
      | some v => some v
      | none => dget d2 key := by
  induction d1 with
  | nil => simp [dget]
  | cons kv rest ih =>
    obtain ⟨k1, v1⟩ := kv
    by_cases hk : k1 = key
    · simp [dget, hk]
    · simp only [List.cons_append, dget, if_neg hk]
      exact ih

theorem dget_dset_self (d : List (Nat × List String)) (k : Nat)
    (v : List String) : dget (dset d k v) k = some v := by
  unfold dset
  by_cases h : (dget d k).isSome
  · rw [if_pos h, dget_map_update, if_pos rfl]
    obtain ⟨w, hw⟩ := Option.isSome_iff_exists.mp h
    rw [hw]
    rfl
  · rw [if_neg h, dget_append]
    rw [Option.not_isSome_iff_eq_none] at h
    rw [h]
    simp [dget]

theorem dget_dset_ne (d : List (Nat × List String)) (k k2 : Nat)
    (v : List String) (hne : k2 ≠ k) :
    dget (dset d k v) k2 = dget d k2 := by
  unfold dset
  by_cases h : (dget d k).isSome
  · rw [if_pos h, dget_map_update, if_neg hne]
  · rw [if_neg h, dget_append]
    cases hc : dget d k2 with
    | some w => rfl
    | none => simp [dget, if_neg (fun hh : k = k2 => hne hh.symm)]

theorem dget_none_of_keys_gt (d : List (Nat × List String)) (k : Nat)
    (h : ∀ kv ∈ d, k < kv.1) : dget d k = none := by
  induction d with
  | nil => rfl
  | cons kv rest ih =>
    obtain ⟨k1, v1⟩ := kv
    have h1 := h (k1, v1) (by simp)
    simp only [dget]
    rw [if_neg (by simp at h1; omega)]
    exact ih (fun kv hkv => h kv (by simp [hkv]))

theorem mem_dset (d : List (Nat × List String)) (k : Nat) (v : List String) :
    ∀ kv ∈ dset d k v, kv ∈ d ∨ kv = (k, v) := by
  intro kv hkv
  unfold dset at hkv
  by_cases h : (dget d k).isSome
  · rw [if_pos h] at hkv
    rw [List.mem_map] at hkv
    obtain ⟨a, ha, hav⟩ := hkv
    by_cases hk : a.1 = k
    · rw [if_pos hk] at hav
      right
      exact hav.symm
    · rw [if_neg hk] at hav
      left
      exact hav ▸ ha
  · rw [if_neg h] at hkv
    rw [List.mem_append] at hkv
    rcases hkv with hkv | hkv
    · left; exact hkv
    · right; simpa using hkv

/-- Invariant of reachable states: every stored winners list is keyed by
the size of the round it was recorded in, hence at least the current
round size, and the winners list of the current round only contains
players of the current round. -/
def StateInv (d : TData) : Prop :=
  (∀ kv ∈ d.winners, d.current_round_players.length ≤ kv.1) ∧
  (∀ x ∈ wcur d, x ∈ d.current_round_players)

theorem byes_applied_subset (d : TData) (hInv : StateInv d) :
    ∀ x ∈ byes_applied d, x ∈ d.current_round_players := by
  intro x hx
  rw [byes_applied, List.mem_append] at hx
  rcases hx with hx | hx
  · exact hInv.2 x hx
  · exact bye_winners_subset _ x hx

theorem reach_stateInv (d : TData) (h : Reach d) : StateInv d := by
  induction h with
  | start players hlen =>
    constructor
    · intro kv hkv
      simp [start_tournament] at hkv
    · intro x hx
      simp [wcur, start_tournament, dget] at hx
  | click d p1 p2 w hR h2 hmem hw ih =>
    have hcur : (clickStep d w).current_round_players =
        d.current_round_players := rfl
    constructor
    · intro kv hkv
      simp only [clickStep] at hkv
      rcases mem_dset _ _ _ kv hkv with hkv | hkv
      · exact hcur ▸ ih.1 kv hkv
      · rw [hcur, hkv]
    · intro x hx
      rw [hcur]
      simp only [wcur, clickStep, hcur] at hx
      rw [dget_dset_self] at hx
      simp only [Option.getD_some, List.mem_append] at hx
      rcases hx with hx | hx
      · exact byes_applied_subset d ih x hx
      · simp at hx
        subst hx
        rcases hw with hw | hw <;>
          [exact hw ▸ (matches_to_play_mem _ _ p1 p2 hmem).1;
           exact hw ▸ (matches_to_play_mem _ _ p1 p2 hmem).2]
  | advance d hR h2 hcomp ih =>
    have hlt : (byes_applied d).length < d.current_round_players.length := by
      omega
    constructor
    · intro kv hkv
      simp only [advanceStep] at hkv
      rcases mem_dset _ _ _ kv hkv with hkv | hkv
      · have := ih.1 kv hkv
        simp only [advanceStep]
        omega
      · simp only [advanceStep, hkv]
        omega
    · intro x hx
      exfalso
      simp only [wcur, advanceStep] at hx
      rw [dget_dset_ne _ _ _ _ (by omega)] at hx
      rw [dget_none_of_keys_gt] at hx
      · simp at hx
      · intro kv hkv
        have := ih.1 kv hkv
        omega
  | idle d hR h2 hne ih =>
    have hcur : (idleStep d).current_round_players =
        d.current_round_players := rfl
    constructor
    · intro kv hkv
      simp only [idleStep] at hkv
      rcases mem_dset _ _ _ kv hkv with hkv | hkv
      · exact hcur ▸ ih.1 kv hkv
      · rw [hcur, hkv]
    · intro x hx
      rw [hcur]
      simp only [wcur, idleStep, hcur] at hx
      rw [dget_dset_self] at hx
      simp only [Option.getD_some] at hx
      exact byes_applied_subset d ih x hx

/-! ## Concrete traces used by several claims -/

/-- Fresh 4-player tournament: `current_round_players = [A, D, B, C]`,
pairs to play `(A, D)` (slot 0) and `(B, C)` (slot 1). -/
def d4_start : TData := start_tournament ["A", "B", "C", "D"]

/-- After clicking `B` as winner of the slot-1 match `(B, C)`. -/
def d4_b : TData := clickStep d4_start "B"

/-- After also clicking `A` as winner of the slot-0 match `(A, D)`. -/
def d4_ba : TData := clickStep d4_b "A"

/-- After the automatic round-completion advance: the round-of-2 list is
the winners list in click order, `[B, A]`. -/
def d4_final : TData := advanceStep d4_ba

theorem reach_d4_start : Reach d4_start :=
  Reach.start ["A", "B", "C", "D"] (by decide)

theorem reach_d4_b : Reach d4_b :=
  Reach.click d4_start "B" "C" "B" reach_d4_start (by decide) (by decide)
    (Or.inl rfl)

theorem reach_d4_ba : Reach d4_ba :=
  Reach.click d4_b "A" "D" "A" reach_d4_b (by decide) (by decide)
    (Or.inl rfl)

theorem reach_d4_final : Reach d4_final :=
  Reach.advance d4_ba reach_d4_ba (by decide) (by decide)

/-- Claim C2: refuted by the playing loop.  `create_seeded_bracket` does
put the first `bracketSize - N` seeds into `byes` and pairs only the
remaining players (for `[P1..P5]`: byes `[P1, P2, P3]` and the single
stored match `(P4, P5)`), and the comment on src line 332 even says the
bye players go straight to the next round; but line 332 concatenates
byes and match players into `current_round_players`, and the playing
loop (lines 352-361) pairs that list adjacently.  So in the first
playable round the rendered matches are `(P1, P2)` and `(P3, P4)` - the
bye players play immediately - while `P5` is auto-advanced as the
trailing unpaired player, and no round of size `bracketSize / 2 = 4`
ever exists in the round map. -/
theorem c2_bye_players_play :
    Reach (start_tournament ["P1", "P2", "P3", "P4", "P5"]) ∧
    (start_tournament ["P1", "P2", "P3", "P4", "P5"]).byes =
      ["P1", "P2", "P3"] ∧
    (start_tournament ["P1", "P2", "P3", "P4", "P5"]).match_list =
      [("P4", "P5")] ∧
    matches_to_play []
        (start_tournament ["P1", "P2", "P3", "P4", "P5"]).current_round_players =
      [("P1", "P2"), ("P3", "P4")] ∧
    bye_winners
        (start_tournament ["P1", "P2", "P3", "P4", "P5"]).current_round_players =
      ["P5"] ∧
    dget (start_tournament ["P1", "P2", "P3", "P4", "P5"]).rounds 4 = none :=
  ⟨Reach.start ["P1", "P2", "P3", "P4", "P5"] (by decide),
   rfl, rfl, rfl, rfl, rfl⟩

/-- Claim C3 counterexample: advancement does not preserve bracket slots.
In the reachable 4-player trace the round-of-4 list is `[A, D, B, C]`
with slot-0 match `(A, D)` and slot-1 match `(B, C)`.  The winner of the
slot-0 match is `A`, yet after recording `B` first and `A` second the
next round list is the winners list in click order, `[B, A]`: slot 0 of
the next round holds `B`, not the slot-0 winner `A`.  The next round
list is ordered by recording time, not by bracket position. -/
theorem c3_counterexample :
    Reach d4_final ∧
    matches_to_play [] d4_start.current_round_players =
      [("A", "D"), ("B", "C")] ∧
    d4_final.current_round_players = ["B", "A"] ∧
    dget d4_final.rounds 2 = some ["B", "A"] ∧
    (["B", "A"] : List String).getD 0 "" ≠ "A" :=
  ⟨reach_d4_final, rfl, rfl, rfl, by decide⟩

/-- Claim C3 (amended): when a round of a reachable state completes
(`len(winners) == round_num // 2`, with the bye append of the final
render included), the next round list is exactly the winners list: its
length is `⌊S / 2⌋`, it is stored in the round map under its own length,
and every player in it is a player of the completed round (each entry
was appended either by the bye auto-advance or by a recorded win).  The
list is in recording order; the slot-preservation part of the claim is
false, see the counterexample. -/
theorem c3_amended (d : TData) (hR : Reach d)
    (h2 : 2 ≤ d.current_round_players.length)
    (hc : (byes_applied d).length = d.current_round_players.length / 2) :
    (advanceStep d).current_round_players = byes_applied d ∧
    (advanceStep d).current_round_players.length =
      d.current_round_players.length / 2 ∧
    dget (advanceStep d).rounds ((byes_applied d).length) =
      some (byes_applied d) ∧
    ∀ x ∈ (advanceStep d).current_round_players,
      x ∈ d.current_round_players := by
  refine ⟨rfl, ?_, ?_, ?_⟩
  · show (byes_applied d).length = _
    exact hc
  · show dget (dset d.rounds (byes_applied d).length (byes_applied d)) _ = _
    exact dget_dset_self _ _ _
  · intro x hx
    exact byes_applied_subset d (reach_stateInv d hR) x hx

/-- Claim C3 witness: the amended theorem applied to the reachable state
`d4_ba` whose round of 4 is complete. -/
theorem c3_amended_witness :
    (advanceStep d4_ba).current_round_players = byes_applied d4_ba ∧
    (advanceStep d4_ba).current_round_players.length =
      d4_ba.current_round_players.length / 2 ∧
    dget (advanceStep d4_ba).rounds ((byes_applied d4_ba).length) =
      some (byes_applied d4_ba) ∧
    ∀ x ∈ (advanceStep d4_ba).current_round_players,
      x ∈ d4_ba.current_round_players :=
  c3_amended d4_ba reach_d4_ba (by decide) (by decide)

/-! ## Claim C6: re-recording a decided match -/

/-- Possible outcomes of trying to record a result.  The code only ever
produces `recorded` (a rendered button was clicked) or `ignored` (no
button exists for the pair, so nothing happens); `alreadyDecided` is the
error the specification claims and is included here only so the claim
can be stated - the code never returns it. -/
inductive ClickOutcome where
  | recorded (d : TData)
  | alreadyDecided
  | ignored
deriving DecidableEq

/-- src lines 360-373: a result button exists exactly for the pairs in
`matches_to_play`; clicking it appends the chosen winner.  For any other
pair (in particular a decided one) there is no button and an attempted
record is a silent no-op. -/
def attempt_record (d : TData) (p1 p2 w : String) : ClickOutcome :=
  if (p1, p2) ∈ matches_to_play (wcur d) d.current_round_players ∧
      (w = p1 ∨ w = p2) then
    ClickOutcome.recorded (clickStep d w)
  else ClickOutcome.ignored

/-- Claim C6 counterexample: in the reachable state `d4_b` the match
`(B, C)` is decided (winner `B`).  Attempting to record `C` as its
winner is silently ignored - the pair has no button any more - and no
`AlreadyDecided` error is produced anywhere; the code has no error
values at all (and no score field exists to be left unchanged). -/
theorem c6_counterexample :
    ("B" ∈ wcur d4_b) ∧
    attempt_record d4_b "B" "C" "C" = ClickOutcome.ignored ∧
    ClickOutcome.ignored ≠ ClickOutcome.alreadyDecided := by
  refine ⟨by decide, by decide, ?_⟩
  intro h
  cases h

/-- Claim C6 (amended): a decided match is terminal, but by omission
rather than by error: once either player of a pair is in the winners
list of the current round, the pair is excluded from `matches_to_play`,
so no result button is rendered for it, any attempted re-record is a
no-op, and the recorded winner remains the one who advances.  No
`AlreadyDecided` error (and no score) exists in the code. -/
theorem c6_amended (d : TData) (p1 p2 w : String)
    (h : p1 ∈ wcur d ∨ p2 ∈ wcur d) :
    attempt_record d p1 p2 w = ClickOutcome.ignored ∧
    (p1, p2) ∉ matches_to_play (wcur d) d.current_round_players := by
  have hnot := matches_to_play_not_decided (wcur d)
    d.current_round_players p1 p2 h
  refine ⟨?_, hnot⟩
  unfold attempt_record
  rw [if_neg]
  intro hc
  exact hnot hc.1

/-- Claim C6 witness: the amended theorem applied to the decided match
`(B, C)` of the reachable state `d4_b`. -/
theorem c6_amended_witness :
    attempt_record d4_b "B" "C" "C" = ClickOutcome.ignored ∧
    ("B", "C") ∉ matches_to_play (wcur d4_b) d4_b.current_round_players :=
  c6_amended d4_b "B" "C" "C" (Or.inl (by decide))

/-! ## Settlement (`update_rankings_and_history`, src lines 403-464)

The rankings dict is modelled as a function `String → Option Nat` (a key
is present iff the value is `some`), the history file as a list of
records.  The timestamp-derived id and name of a record come from
`datetime.now` (external input) and carry no information used by any
claim, so they are not modelled. -/

/-- src lines 32-37: the points ladder, keyed by bracket size. -/
def POINTS_STRUCTURE : List (Nat × List (String × Nat)) :=
  [(4, [("winner", 100), ("finalist", 60), ("semifinalist", 30)]),
   (8, [("winner", 200), ("finalist", 120), ("semifinalist", 70),
        ("quarterfinalist", 30)]),
   (16, [("winner", 400), ("finalist", 240), ("semifinalist", 140),
         ("quarterfinalist", 80), ("round_of_16", 40)]),
   (32, [("winner", 800), ("finalist", 480), ("semifinalist", 280),
         ("quarterfinalist", 160), ("round_of_16", 80), ("round_of_32", 40)])]

/-- `POINTS_STRUCTURE.keys()` in insertion order. -/
def POINTS_KEYS : List Nat := [4, 8, 16, 32]

/-- Lookup of a points map by bracket size. -/
def psget : List (Nat × List (String × Nat)) → Nat → Option (List (String × Nat))
  | [], _ => none
  | (k, v) :: rest, key => if k = key then some v else psget rest key

/-- `abs(a - b)` on integers, expressed on `Nat`. -/
def abs_diff (a b : Nat) : Nat := (a - b) + (b - a)

/-- Python `min(xs, key=f)` with `x` the first element: iterates left to
right and keeps the first element whose key is minimal (replacement only
on a strictly smaller key). -/
def pymin (f : Nat → Nat) (x : Nat) (xs : List Nat) : Nat :=
  xs.foldl (fun best y => if f y < f best then y else best) x

/-- src line 411: `min(POINTS_STRUCTURE.keys(), key=lambda k: abs(k - bracket_size))`. -/
def points_key (bs : Nat) : Nat :=
  pymin (fun k => abs_diff k bs) 4 [8, 16, 32]

/-- src lines 411-412: the points map of the nearest configured bracket
size (the lookup never misses since `points_key bs` is a key). -/
def settle_points_map (bs : Nat) : List (String × Nat) :=
  (psget POINTS_STRUCTURE (points_key bs)).getD []

/-- src lines 436-443: the `round_outcomes` table, already in the
ascending order produced by `sorted(round_outcomes.items())`. -/
def round_outcomes : List (Nat × String × String) :=
  [(1, "winner", "冠军"), (2, "finalist", "亚军"), (4, "semifinalist", "四强"),
   (8, "quarterfinalist", "八强"), (16, "round_of_16", "十六强"),
   (32, "round_of_32", "三十二强")]

/-- Lookup of the `(tier key, tier name)` of a round size in a
`round_outcomes`-shaped table. -/
def rget : List (Nat × String × String) → Nat → Option (String × String)
  | [], _ => none
  | (k, key, name) :: rest, sz =>
    if k = sz then some (key, name) else rget rest sz

/-- src lines 444-448: scan the sorted `round_outcomes` and stop at the
first round size whose round-map entry contains the player; default
`(0, "参与")` (zero points, participation). -/
def outcome_loop (rounds : List (Nat × List String))
    (pm : List (String × Nat)) (player : String) :
    List (Nat × String × String) → Nat × String
  | [] => (0, "参与")
  | (size, key, name) :: rest =>
    if player ∈ (dget rounds size).getD [] then
      ((alist_get pm key).getD 0, name)
    else outcome_loop rounds pm player rest

/-- The points and outcome the settlement computes for one player
(lines 410-412 and 434-448 combined). -/
def code_outcome (rounds : List (Nat × List String)) (bs : Nat)
    (player : String) : Nat × String :=
  outcome_loop rounds (settle_points_map bs) player round_outcomes

/-- src lines 427-432: the win count of a player is the number of round
entries other than the initial one (`r_size_str == str(bracket_size)` is
skipped) whose size is below the bracket size and whose list contains
the player. -/
def wins_of (rounds : List (Nat × List String)) (bs : Nat)
    (player : String) : Nat :=
  rounds.countP (fun kv => decide (¬kv.1 = bs ∧ player ∈ kv.2 ∧ kv.1 < bs))

/-- One participant entry of a history record (src lines 451-456). -/
structure PRec where
  name : String
  outcome : String
  wins : Nat
  points_earned : Nat
deriving DecidableEq, Repr

/-- One history record (src lines 415-420); the timestamp-derived `id`
and `name` fields are external input and not modelled. -/
structure TRecord where
  draw_size : Nat
  participants : List PRec
deriving DecidableEq, Repr

/-- The persistent state touched by settlement: the rankings dict and
the tournament history list. -/
structure AppState where
  rankings : String → Option Nat
  history : List TRecord

/-- src lines 422-457: the body of the `for player in initial_players`
loop.  A missing rankings key is first inserted with value 0, then the
points of the outcome are added, and the participant entry is appended. -/
def settle_step (rounds : List (Nat × List String))
    (pm : List (String × Nat)) (bs : Nat)
    (acc : (String → Option Nat) × List PRec) (player : String) :
    (String → Option Nat) × List PRec :=
  let r0 := acc.1
  let r1 := if (r0 player).isSome then r0
    else fun q => if q = player then some 0 else r0 q
  let po := outcome_loop rounds pm player round_outcomes
  (fun q => if q = player then some ((r1 player).getD 0 + po.1) else r1 q,
   acc.2 ++ [{ name := player, outcome := po.2,
               wins := wins_of rounds bs player, points_earned := po.1 }])

/-- src lines 403-461: settlement.  It runs unconditionally - there is
no settled flag and no `AlreadySettled` guard anywhere - so every call
adds points for every initial player and appends one history record. -/
def update_rankings_and_history (st : AppState) (data : TData) : AppState :=
  let bs := data.bracket_size
  let rounds := data.rounds
  let pm := settle_points_map bs
  let res := data.initial_players.foldl (settle_step rounds pm bs)
    (st.rankings, [])
  { rankings := res.1,
    history := st.history ++ [{ draw_size := bs, participants := res.2 }] }

/-- Fresh persistent state: no rankings, no history. -/
def empty_state : AppState := { rankings := fun _ => none, history := [] }

/-! ### Finishing the 4-player trace to a terminal state -/

/-- Final of the 4-player trace: `A` beats `B`. -/
def d4_f2 : TData := clickStep d4_final "A"

/-- Terminal state of the 4-player trace: champion `A`, round map
`{4: [A, B, C, D], 2: [B, A], 1: [A]}`. -/
def d4_done : TData := advanceStep d4_f2

theorem reach_d4_f2 : Reach d4_f2 :=
  Reach.click d4_final "B" "A" "A" reach_d4_final (by decide) (by decide)
    (Or.inr rfl)

theorem reach_d4_done : Reach d4_done :=
  Reach.advance d4_f2 reach_d4_f2 (by decide) (by decide)

/-- Claim C1: the code has no idempotence guard.  `d4_done` is a
reachable terminal tournament (champion `A`), and the finished page
calls `update_rankings_and_history` on every render.  Settling once from
a fresh state credits `A:100, B:60, C:30, D:30` and appends one history
record; settling the same tournament a second time credits everybody
again (`A` reaches 200) and appends a second record, instead of being
rejected with `AlreadySettled` and leaving the state unchanged. -/
theorem c1_no_settlement_guard :
    Reach d4_done ∧ Terminal d4_done ∧
    (update_rankings_and_history empty_state d4_done).rankings "A" =
      some 100 ∧
    (update_rankings_and_history empty_state d4_done).rankings "B" =
      some 60 ∧
    (update_rankings_and_history empty_state d4_done).rankings "C" =
      some 30 ∧
    (update_rankings_and_history empty_state d4_done).history.length = 1 ∧
    (update_rankings_and_history
        (update_rankings_and_history empty_state d4_done) d4_done).rankings "A" =
      some 200 ∧
    (update_rankings_and_history
        (update_rankings_and_history empty_state d4_done) d4_done).rankings "B" =
      some 120 ∧
    (update_rankings_and_history
        (update_rankings_and_history empty_state d4_done) d4_done).history.length =
      2 :=
  ⟨reach_d4_done, by decide, by decide, by decide, by decide, by decide,
   by decide, by decide, by decide⟩

/-! ### A reachable terminal 6-player tournament

With six seeds the bracket size is 8, byes `[A, B]`, stored matches
`(C, F)` and `(D, E)`, but the playing loop pairs
`current_round_players = [A, B, C, F, D, E]` adjacently; after `A`, `C`
and `D` win, the intermediate round `[A, C, D]` completes immediately on
the next render because its trailing bye append makes
`len(winners) = 1 = 3 // 2`, crowning `D` without the pair `(A, C)`
ever being played.  The resulting terminal round map is
`{8: [A..F], 3: [A, C, D], 1: [D]}`. -/

def d6_0 : TData := start_tournament ["A", "B", "C", "D", "E", "F"]

def d6_1 : TData := clickStep d6_0 "A"

def d6_2 : TData := clickStep d6_1 "C"

def d6_3 : TData := clickStep d6_2 "D"

def d6_4 : TData := advanceStep d6_3

def d6_5 : TData := advanceStep d6_4

theorem reach_d6_0 : Reach d6_0 :=
  Reach.start ["A", "B", "C", "D", "E", "F"] (by decide)

theorem reach_d6_1 : Reach d6_1 :=
  Reach.click d6_0 "A" "B" "A" reach_d6_0 (by decide) (by decide) (Or.inl rfl)

theorem reach_d6_2 : Reach d6_2 :=
  Reach.click d6_1 "C" "F" "C" reach_d6_1 (by decide) (by decide) (Or.inl rfl)

theorem reach_d6_3 : Reach d6_3 :=
  Reach.click d6_2 "D" "E" "D" reach_d6_2 (by decide) (by decide) (Or.inl rfl)

theorem reach_d6_4 : Reach d6_4 :=
  Reach.advance d6_3 reach_d6_3 (by decide) (by decide)

theorem reach_d6_5 : Reach d6_5 :=
  Reach.advance d6_4 reach_d6_4 (by decide) (by decide)

/-! ## Claim C7: the outcome computation -/

/-- The round sizes that have a tier, in the ascending order the code
scans them (keys of `round_outcomes`). -/
def tier_sizes : List Nat := [1, 2, 4, 8, 16, 32]

/-- The tier-carrying round-map keys that contain the player. -/
def qualifying_sizes (rounds : List (Nat × List String)) (p : String) :
    List Nat :=
  tier_sizes.filter (fun k => decide (p ∈ (dget rounds k).getD []))

/-- Minimum of a list of naturals (`none` on the empty list). -/
def nat_list_min : List Nat → Option Nat
  | [] => none
  | x :: xs => some (xs.foldl Nat.min x)

/-- All round-map keys whose entry contains the player (used to state
the claim, which quantifies over every key of the round map). -/
def keys_containing (rounds : List (Nat × List String)) (p : String) :
    List Nat :=
  rounds.filterMap (fun kv => if p ∈ kv.2 then some kv.1 else none)

/-- Stated from the words of claim C7, for comparison with the code:
the outcome is "the tier of the smallest round-size key of the round map
containing" the player, participation if no key contains them.  The
result is `none` when the smallest containing key has no tier, where the
claim assigns no outcome at all. -/
def claim_outcome (rounds : List (Nat × List String)) (p : String) :
    Option String :=
  match nat_list_min (keys_containing rounds p) with
  | none => some "参与"
  | some k => (rget round_outcomes k).map (fun kn => kn.2)

/-- Stated from the words of the amended claim C7: the outcome is the
tier of the smallest element of `{1, 2, 4, 8, 16, 32}` whose round-map
entry contains the player, participation if none of the six does. -/
def claim2_outcome (rounds : List (Nat × List String))
    (pm : List (String × Nat)) (p : String) : Nat × String :=
  match nat_list_min (qualifying_sizes rounds p) with
  | none => (0, "参与")
  | some k =>
    match rget round_outcomes k with
    | some kn => ((alist_get pm kn.1).getD 0, kn.2)
    | none => (0, "参与")

/-- Claim C7 counterexample: the reachable terminal 6-player tournament
`d6_5` has round map `{8: [A..F], 3: [A, C, D], 1: [D]}` (the 3-player
intermediate round is produced by the aliasing-and-bye bugs of the play
loop).  For player `A` the smallest round-map key containing them is 3,
which has no tier, so the claim assigns no outcome; the code skips the
key 3 entirely - it only scans `{1, 2, 4, 8, 16, 32}` - and produces
`(30, 八强)` (quarterfinalist) from the key 8. -/
theorem c7_counterexample :
    Reach d6_5 ∧ Terminal d6_5 ∧
    keys_containing d6_5.rounds "A" = [8, 3] ∧
    nat_list_min (keys_containing d6_5.rounds "A") = some 3 ∧
    claim_outcome d6_5.rounds "A" = none ∧
    code_outcome d6_5.rounds d6_5.bracket_size "A" = (30, "八强") ∧
    claim_outcome d6_5.rounds "A" ≠
      some (code_outcome d6_5.rounds d6_5.bracket_size "A").2 :=
  ⟨reach_d6_5, by decide, by decide, by decide, by decide, by decide,
   by decide⟩

theorem pymin_spec (f : Nat → Nat) :
    ∀ xs x, pymin f x xs ∈ x :: xs ∧ ∀ y ∈ x :: xs, f (pymin f x xs) ≤ f y := by
  intro xs
  induction xs with
  | nil =>
    intro x
    simp [pymin]
  | cons y ys ih =>
    intro x
    have hstep : pymin f x (y :: ys) =
        pymin f (if f y < f x then y else x) ys := rfl
    by_cases hc : f y < f x
    · rw [if_pos hc] at hstep
      obtain ⟨hmem, hmin⟩ := ih y
      rw [hstep]
      constructor
      · rcases List.mem_cons.mp hmem with h | h <;> simp [h]
      · intro z hz
        rcases List.mem_cons.mp hz with hzx | hz2
        · subst hzx
          have := hmin y (by simp)
          omega
        · exact hmin z hz2
    · rw [if_neg hc] at hstep
      obtain ⟨hmem, hmin⟩ := ih x
      rw [hstep]
      constructor
      · rcases List.mem_cons.mp hmem with h | h <;> simp [h]
      · intro z hz
        rcases List.mem_cons.mp hz with hzx | hz2
        · rw [hzx]
          exact hmin _ (List.mem_cons_self _ _)
        · rcases List.mem_cons.mp hz2 with hzy | hzys
          · rw [hzy]
            have := hmin _ (List.mem_cons_self x ys)
            omega
          · exact hmin z (by simp [hzys])

/-- Claim C7 (amended): the outcome is the tier of the smallest size
among `{1, 2, 4, 8, 16, 32}` whose round-map entry contains the player
(participation if none of those six keys contains them - keys of other
sizes are ignored, and since the initial round entry contains every
participant, a first-round loser of a 4 to 32 player bracket already
receives the tier of the full bracket); the points are the ladder value
of that tier in the configured bracket size with minimal absolute
difference to the tournament bracket size (on ties the earlier, smaller
key wins), with missing tiers defaulting to 0. -/
theorem c7_amended (rounds : List (Nat × List String))
    (pm : List (String × Nat)) (p : String) (bs k : Nat)
    (hk : k ∈ POINTS_KEYS) :
    outcome_loop rounds pm p round_outcomes = claim2_outcome rounds pm p ∧
    points_key bs ∈ POINTS_KEYS ∧
    abs_diff (points_key bs) bs ≤ abs_diff k bs := by
  refine ⟨?_, ?_, ?_⟩
  · by_cases h1 : p ∈ (dget rounds 1).getD [] <;>
    by_cases h2 : p ∈ (dget rounds 2).getD [] <;>
    by_cases h3 : p ∈ (dget rounds 4).getD [] <;>
    by_cases h4 : p ∈ (dget rounds 8).getD [] <;>
    by_cases h5 : p ∈ (dget rounds 16).getD [] <;>
    by_cases h6 : p ∈ (dget rounds 32).getD [] <;>
    simp [outcome_loop, round_outcomes, claim2_outcome, qualifying_sizes,
      tier_sizes, nat_list_min, rget, Nat.min_def, h1, h2, h3, h4, h5, h6]
  · exact (pymin_spec (fun j => abs_diff j bs) [8, 16, 32] 4).1
  · exact (pymin_spec (fun j => abs_diff j bs) [8, 16, 32] 4).2 k hk

/-- Claim C7 witness: the amended theorem applied at the terminal state
`d6_5` (bracket size 8) and the configured key 4. -/
theorem c7_amended_witness :
    ((4 : Nat) ∈ POINTS_KEYS) ∧
    (outcome_loop d6_5.rounds (settle_points_map d6_5.bracket_size) "A"
        round_outcomes =
      claim2_outcome d6_5.rounds (settle_points_map d6_5.bracket_size) "A" ∧
    points_key d6_5.bracket_size ∈ POINTS_KEYS ∧
    abs_diff (points_key d6_5.bracket_size) d6_5.bracket_size ≤
      abs_diff 4 d6_5.bracket_size) :=
  ⟨by decide,
   c7_amended d6_5.rounds (settle_points_map d6_5.bracket_size) "A"
     d6_5.bracket_size 4 (by decide)⟩

/-! ## Claim C10: rankings totality and monotonicity of settlement -/

theorem settle_step_mono (rounds : List (Nat × List String))
    (pm : List (String × Nat)) (bs : Nat)
    (acc : (String → Option Nat) × List PRec) (player q : String) (v : Nat)
    (h : acc.1 q = some v) :
    ∃ v2, (settle_step rounds pm bs acc player).1 q = some v2 ∧ v ≤ v2 := by
  simp only [settle_step]
  by_cases hq : q = player
  · subst hq
    have hs : (acc.1 q).isSome = true := by rw [h]; rfl
    rw [if_pos rfl, if_pos hs, h]
    exact ⟨v + (outcome_loop rounds pm q round_outcomes).1, rfl, by omega⟩
  · rw [if_neg hq]
    by_cases hs : (acc.1 player).isSome = true
    · rw [if_pos hs]
      exact ⟨v, h, le_rfl⟩
    · rw [if_neg hs, if_neg hq]
      exact ⟨v, h, le_rfl⟩

theorem settle_step_total (rounds : List (Nat × List String))
    (pm : List (String × Nat)) (bs : Nat)
    (acc : (String → Option Nat) × List PRec) (player : String) :
    ((settle_step rounds pm bs acc player).1 player).isSome = true := by
  simp [settle_step]

theorem settle_fold_mono (rounds : List (Nat × List String))
    (pm : List (String × Nat)) (bs : Nat) :
    ∀ (players : List String) (acc : (String → Option Nat) × List PRec)
      (q : String) (v : Nat), acc.1 q = some v →
      ∃ v2, (players.foldl (settle_step rounds pm bs) acc).1 q = some v2 ∧
        v ≤ v2 := by
  intro players
  induction players with
  | nil => intro acc q v h; exact ⟨v, h, le_rfl⟩
  | cons p rest ih =>
    intro acc q v h
    obtain ⟨v1, h1, hv1⟩ := settle_step_mono rounds pm bs acc p q v h
    obtain ⟨v2, h2, hv2⟩ := ih (settle_step rounds pm bs acc p) q v1 h1
    exact ⟨v2, by simpa using h2, by omega⟩

theorem settle_fold_total (rounds : List (Nat × List String))
    (pm : List (String × Nat)) (bs : Nat) :
    ∀ (players : List String) (acc : (String → Option Nat) × List PRec)
      (p : String), p ∈ players →
      ((players.foldl (settle_step rounds pm bs) acc).1 p).isSome = true := by
  intro players
  induction players with
  | nil => intro acc p hp; simp at hp
  | cons q rest ih =>
    intro acc p hp
    rcases List.mem_cons.mp hp with hpq | hpr
    · subst hpq
      have hs := settle_step_total rounds pm bs acc p
      obtain ⟨v, hv⟩ := Option.isSome_iff_exists.mp hs
      obtain ⟨v2, h2, _⟩ :=
        settle_fold_mono rounds pm bs rest (settle_step rounds pm bs acc p) p v hv
      simp only [List.foldl_cons]
      rw [h2]
      rfl
    · simp only [List.foldl_cons]
      exact ih (settle_step rounds pm bs acc q) p hpr

/-- Claim C10: after every call of `update_rankings_and_history`, every
initial player of the tournament has a rankings entry (a player missing
beforehand is inserted with value 0 before the points are added, src
lines 422-424), and no existing rankings value ever decreases across the
call (the per-player update is `rankings[player] += points` with
non-negative points, src line 450). -/
theorem c10_rankings_total_monotone (st : AppState) (data : TData) :
    (∀ p ∈ data.initial_players,
      ((update_rankings_and_history st data).rankings p).isSome = true) ∧
    (∀ q v, st.rankings q = some v →
      ∃ v2, (update_rankings_and_history st data).rankings q = some v2 ∧
        v ≤ v2) := by
  constructor
  · intro p hp
    simp only [update_rankings_and_history]
    exact settle_fold_total data.rounds (settle_points_map data.bracket_size)
      data.bracket_size data.initial_players (st.rankings, []) p hp
  · intro q v h
    simp only [update_rankings_and_history]
    exact settle_fold_mono data.rounds (settle_points_map data.bracket_size)
      data.bracket_size data.initial_players (st.rankings, []) q v h

/-- A prior state in which player `Z` (not a participant of the
4-player tournament) already has 5 points. -/
def st0 : AppState :=
  { rankings := fun q => if q = "Z" then some 5 else none, history := [] }

/-- Claim C10 witness: the theorem applied to the concrete state `st0`
and the terminal 4-player tournament; the inner hypothesis is
discharged at player `Z` with value 5. -/
theorem c10_witness :
    (∀ p ∈ d4_done.initial_players,
      ((update_rankings_and_history st0 d4_done).rankings p).isSome = true) ∧
    (∃ v2, (update_rankings_and_history st0 d4_done).rankings "Z" = some v2 ∧
      5 ≤ v2) :=
  ⟨(c10_rankings_total_monotone st0 d4_done).1,
   (c10_rankings_total_monotone st0 d4_done).2 "Z" 5 (by decide)⟩

/-! ## Claim C9: the round-robin scheduler

Modelled from the spec: no `RoundRobinScheduler` exists under src/; the
definitions below follow spec section 4.2 word by word.  "If N is odd, a
sentinel no-opponent slot is added to make the count even" - the padded
roster is a `List (Option α)` with `none` the sentinel.  "Uses the
circle method: fix the first player, rotate all others by one position
for each of N-1 rounds; round r pairs index i with index (N-1-i) of the
rotated arrangement", and "any pairing against the sentinel is dropped
from output". -/

variable {α : Type} [DecidableEq α]

/-- Modelled from the spec: the roster padded with a sentinel slot when
the player count is odd. -/
def padded (l : List α) : List (Option α) :=
  (l.map some) ++ (if l.length % 2 = 1 then [none] else [])

/-- Modelled from the spec: the full schedule over an (even-length)
padded roster: the first entry is fixed, the others are rotated by `r`
positions in round `r` (one extra position per round), and round `r`
pairs arrangement index `i` with arrangement index `n - 1 - i`. -/
def rr_sched (ps : List (Option α)) : List (List (Option α × Option α)) :=
  match ps with
  | [] => []
  | first :: others =>
    (List.range others.length).map (fun r =>
      let arr := first :: others.rotate r
      (List.range (arr.length / 2)).map
        (fun i => (arr.getD i none, arr.getD (arr.length - 1 - i) none)))

/-- Modelled from the spec: the rounds of the round-robin schedule of a
roster. -/
def rr_rounds (l : List α) : List (List (Option α × Option α)) :=
  rr_sched (padded l)

/-- A pairing is kept only when both slots hold real players; a pairing
against the sentinel is dropped. -/
def to_real : Option α × Option α → Option (α × α)
  | (some a, some b) => some (a, b)
  | _ => none

/-- Modelled from the spec: the real matches of the schedule, with
every pairing against the sentinel dropped. -/
def rr_matches (l : List α) : List (α × α) :=
  (rr_rounds l).flatten.filterMap to_real

/-- How often the unordered pair `{a, b}` occurs in a match list. -/
def match_count (ms : List (α × α)) (a b : α) : Nat :=
  ms.countP (fun pr => decide (pr = (a, b) ∨ pr = (b, a)))

/-! ### Index-level analysis of the circle method -/

theorem mod_lt_two_mul (a m : Nat) (h : a < 2 * m) :
    a % m = if a < m then a else a - m := by
  by_cases ha : a < m
  · rw [if_pos ha, Nat.mod_eq_of_lt ha]
  · rw [if_neg ha, Nat.mod_eq_sub_mod (by omega), Nat.mod_eq_of_lt (by omega)]

/-- The position-to-roster-index map of round `r`: arrangement position
0 is the fixed first entry (roster index 0), arrangement position
`j ≥ 1` holds the rotated others entry `(j - 1 + r) % m`, that is,
roster index `1 + (j - 1 + r) % m`. -/
def sigma_idx (m r j : Nat) : Nat :=
  if j = 0 then 0 else 1 + (j - 1 + r) % m

theorem sigma_idx_lt (m r j : Nat) (hm : 1 ≤ m) : sigma_idx m r j < m + 1 := by
  unfold sigma_idx
  split
  · omega
  · have := Nat.mod_lt (j - 1 + r) (show 0 < m by omega)
    omega

theorem sigma_idx_val (m r j : Nat) (hr : r < m) (hj1 : 1 ≤ j) (hjm : j ≤ m) :
    sigma_idx m r j = if j + r ≤ m then j + r else j + r - m := by
  unfold sigma_idx
  rw [if_neg (by omega), mod_lt_two_mul (j - 1 + r) m (by omega)]
  split_ifs <;> omega

/-- Order-normalised pair. -/
def normPair : Nat × Nat → Nat × Nat
  | (x, y) => if x ≤ y then (x, y) else (y, x)

theorem normPair_cases (u v p q : Nat)
    (h : normPair (u, v) = normPair (p, q)) :
    (u = p ∧ v = q) ∨ (u = q ∧ v = p) := by
  simp only [normPair] at h
  split_ifs at h <;> simp only [Prod.mk.injEq] at h <;> omega

theorem normPair_swap (x y : Nat) : normPair (x, y) = normPair (y, x) := by
  simp only [normPair]
  split_ifs with h1 h2 h2
  · have hxy : x = y := by omega
    subst hxy
    rfl
  · rfl
  · rfl
  · exact (h2 (Nat.le_of_not_le h1)).elim

/-- The roster-index pair played by match `i` of round `r`. -/
def circle_pair (m r i : Nat) : Nat × Nat :=
  (sigma_idx m r i, sigma_idx m r (m - i))

/-- The normalised roster-index pair of match `i` of round `r`. -/
def G (m r i : Nat) : Nat × Nat := normPair (circle_pair m r i)

/-- Closed-form case analysis of the two components of a circle-method
pair, for `m` odd, `r < m` and `i < (m + 1) / 2`. -/
theorem comps_spec (m r i : Nat) (hm : m % 2 = 1) (hr : r < m)
    (hi : i < (m + 1) / 2) :
    ((i = 0 ∧ sigma_idx m r i = 0) ∨
     (1 ≤ i ∧ i + r ≤ m ∧ sigma_idx m r i = i + r) ∨
     (1 ≤ i ∧ m < i + r ∧ sigma_idx m r i = i + r - m)) ∧
    ((r ≤ i ∧ sigma_idx m r (m - i) = m - i + r) ∨
     (i < r ∧ sigma_idx m r (m - i) = r - i)) := by
  have hm1 : 1 ≤ m := by omega
  constructor
  · by_cases h0 : i = 0
    · left
      exact ⟨h0, by simp [sigma_idx, h0]⟩
    · rw [sigma_idx_val m r i hr (by omega) (by omega)]
      by_cases hc : i + r ≤ m
      · right; left
        exact ⟨by omega, hc, by rw [if_pos hc]⟩
      · right; right
        exact ⟨by omega, by omega, by rw [if_neg hc]⟩
  · rw [sigma_idx_val m r (m - i) hr (by omega) (by omega)]
    by_cases hc : m - i + r ≤ m
    · left
      exact ⟨by omega, by rw [if_pos hc]⟩
    · right
      exact ⟨by omega, by rw [if_neg hc]; omega⟩

/-- The two components of a circle-method pair are distinct and below
`m + 1`, so the normalised pair lies strictly below the diagonal. -/
theorem G_mem (m r i : Nat) (hm : m % 2 = 1) (hr : r < m)
    (hi : i < (m + 1) / 2) :
    (G m r i).1 < (G m r i).2 ∧ (G m r i).2 < m + 1 := by
  obtain ⟨hu, hv⟩ := comps_spec m r i hm hr hi
  simp only [G, circle_pair, normPair]
  split_ifs with hle <;> constructor <;> simp only [] <;> omega

/-- Injectivity of the circle-method pairing: two different
(round, match) positions never produce the same unordered index pair. -/
theorem G_inj (m : Nat) (hm : m % 2 = 1) (r1 i1 r2 i2 : Nat)
    (hr1 : r1 < m) (hi1 : i1 < (m + 1) / 2)
    (hr2 : r2 < m) (hi2 : i2 < (m + 1) / 2)
    (h : G m r1 i1 = G m r2 i2) : r1 = r2 ∧ i1 = i2 := by
  obtain ⟨hu1, hv1⟩ := comps_spec m r1 i1 hm hr1 hi1
  obtain ⟨hu2, hv2⟩ := comps_spec m r2 i2 hm hr2 hi2
  have hcases := normPair_cases _ _ _ _ h
  omega

/-! ### Counting the circle-method pairs -/

theorem T_card (n : Nat) :
    ((Finset.range n ×ˢ Finset.range n).filter (fun pq => pq.1 < pq.2)).card =
      n * (n - 1) / 2 := by
  have hT : (Finset.range n ×ˢ Finset.range n).filter (fun pq => pq.1 < pq.2) =
      (Finset.range n).biUnion
        (fun q => (Finset.range q).image (fun p => (p, q))) := by
    ext pq
    obtain ⟨p, q⟩ := pq
    simp only [Finset.mem_filter, Finset.mem_product, Finset.mem_biUnion,
      Finset.mem_image, Finset.mem_range]
    constructor
    · rintro ⟨⟨hp, hq⟩, hlt⟩
      exact ⟨q, hq, p, hlt, rfl⟩
    · rintro ⟨q2, hq2, p2, hp2, heq⟩
      rw [Prod.mk.injEq] at heq
      obtain ⟨h1, h2⟩ := heq
      subst h1
      subst h2
      exact ⟨⟨by omega, hq2⟩, hp2⟩
  rw [hT, Finset.card_biUnion]
  · have hsum : ∀ q ∈ Finset.range n,
        ((Finset.range q).image (fun p => (p, q))).card = q := by
      intro q _
      rw [Finset.card_image_of_injective _
          (fun a b hab => by rw [Prod.mk.injEq] at hab; exact hab.1),
        Finset.card_range]
    rw [Finset.sum_congr rfl hsum]
    have := Finset.sum_range_id_mul_two n
    omega
  · intro x hx y hy hxy
    rw [Finset.disjoint_left]
    intro pq hpqx hpqy
    simp only [Finset.mem_image, Finset.mem_range] at hpqx hpqy
    obtain ⟨p1, _, h1⟩ := hpqx
    obtain ⟨p2, _, h2⟩ := hpqy
    apply hxy
    rw [← h1] at h2
    rw [Prod.mk.injEq] at h2
    exact h2.2.symm

/-- The circle-method pairing is a bijection from (round, match index)
positions onto the unordered pairs of distinct roster indices. -/
theorem G_image (m : Nat) (hm : m % 2 = 1) :
    (Finset.range m ×ˢ Finset.range ((m + 1) / 2)).image
        (fun x => G m x.1 x.2) =
      (Finset.range (m + 1) ×ˢ Finset.range (m + 1)).filter
        (fun pq => pq.1 < pq.2) := by
  apply Finset.eq_of_subset_of_card_le
  · intro pq hpq
    rw [Finset.mem_image] at hpq
    obtain ⟨x, hx, hGx⟩ := hpq
    rw [Finset.mem_product, Finset.mem_range, Finset.mem_range] at hx
    obtain ⟨hlt, hlt2⟩ := G_mem m x.1 x.2 hm hx.1 hx.2
    rw [Finset.mem_filter, Finset.mem_product, Finset.mem_range,
      Finset.mem_range, ← hGx]
    exact ⟨⟨by omega, hlt2⟩, hlt⟩
  · rw [T_card]
    rw [Finset.card_image_of_injOn]
    · rw [Finset.card_product, Finset.card_range, Finset.card_range]
      have hm1 : m + 1 - 1 = m := by omega
      have h2k : m + 1 = 2 * ((m + 1) / 2) := by omega
      have key : (m + 1) * (m + 1 - 1) = 2 * (((m + 1) / 2) * m) := by
        rw [hm1]
        conv_lhs => rw [h2k]
        ring
      rw [key, Nat.mul_div_cancel_left _ (by norm_num : 0 < 2)]
      exact le_of_eq (Nat.mul_comm _ _)
    · intro x hx y hy hxy
      simp only [Finset.coe_product, Set.mem_prod, Finset.mem_coe,
        Finset.mem_range] at hx hy
      obtain ⟨h1, h2⟩ := G_inj m hm x.1 x.2 y.1 y.2 hx.1 hx.2 hy.1 hy.2 hxy
      exact Prod.ext h1 h2

theorem G_surj (m : Nat) (hm : m % 2 = 1) (p q : Nat) (hq : q < m + 1)
    (hlt : p < q) :
    ∃ r i, r < m ∧ i < (m + 1) / 2 ∧ G m r i = (p, q) := by
  have hpq : (p, q) ∈ (Finset.range (m + 1) ×ˢ Finset.range (m + 1)).filter
      (fun pq => pq.1 < pq.2) := by
    rw [Finset.mem_filter, Finset.mem_product, Finset.mem_range,
      Finset.mem_range]
    exact ⟨⟨by omega, hq⟩, hlt⟩
  rw [← G_image m hm, Finset.mem_image] at hpq
  obtain ⟨x, hx, hGx⟩ := hpq
  rw [Finset.mem_product, Finset.mem_range, Finset.mem_range] at hx
  exact ⟨x.1, x.2, hx.1, hx.2, hGx⟩

/-- Every below-diagonal index pair is hit by exactly one (round, match)
position: existence from the bijection, uniqueness from injectivity. -/
theorem G_count_one (m : Nat) (hm : m % 2 = 1) (p q : Nat) (hq : q < m + 1)
    (hlt : p < q) :
    ∑ r ∈ Finset.range m,
      ((Finset.range ((m + 1) / 2)).filter (fun i => G m r i = (p, q))).card
      = 1 := by
  obtain ⟨r0, i0, hr0, hi0, hG0⟩ := G_surj m hm p q hq hlt
  have hsummand : ∀ r ∈ Finset.range m,
      ((Finset.range ((m + 1) / 2)).filter (fun i => G m r i = (p, q))).card =
        if r = r0 then 1 else 0 := by
    intro r hr
    rw [Finset.mem_range] at hr
    by_cases hrr : r = r0
    · subst hrr
      rw [if_pos rfl]
      have hfil : (Finset.range ((m + 1) / 2)).filter
          (fun i => G m r i = (p, q)) = {i0} := by
        ext i
        rw [Finset.mem_filter, Finset.mem_range, Finset.mem_singleton]
        constructor
        · rintro ⟨hi, hGi⟩
          exact (G_inj m hm r i r i0 hr hi hr hi0 (hGi.trans hG0.symm)).2
        · rintro rfl
          exact ⟨hi0, hG0⟩
      rw [hfil, Finset.card_singleton]
    · rw [if_neg hrr]
      rw [Finset.card_eq_zero, Finset.filter_eq_empty_iff]
      intro i hi
      rw [Finset.mem_range] at hi
      intro hGi
      exact hrr (G_inj m hm r i r0 i0 hr hi hr0 hi0 (hGi.trans hG0.symm)).1
  rw [Finset.sum_congr rfl hsummand, Finset.sum_ite_eq' (Finset.range m) r0
    (fun _ => 1), if_pos (Finset.mem_range.mpr hr0)]

/-- In every round exactly one match touches the last roster index. -/
theorem G_sentinel_row (m r : Nat) (hm : m % 2 = 1) (hr : r < m) :
    ((Finset.range ((m + 1) / 2)).filter (fun i => (G m r i).2 = m)).card
      = 1 := by
  have hchar : ∀ i, i < (m + 1) / 2 →
      ((G m r i).2 = m ↔ i = (if r < (m + 1) / 2 then r else m - r)) := by
    intro i hi
    obtain ⟨hu, hv⟩ := comps_spec m r i hm hr hi
    simp only [G, circle_pair, normPair]
    split_ifs <;> simp only [] <;> omega
  have hfil : (Finset.range ((m + 1) / 2)).filter (fun i => (G m r i).2 = m) =
      {if r < (m + 1) / 2 then r else m - r} := by
    ext i
    rw [Finset.mem_filter, Finset.mem_range, Finset.mem_singleton]
    constructor
    · rintro ⟨hi, hGi⟩
      exact (hchar i hi).mp hGi
    · rintro rfl
      have hin : (if r < (m + 1) / 2 then r else m - r) < (m + 1) / 2 := by
        split_ifs <;> omega
      exact ⟨hin, (hchar _ hin).mpr rfl⟩
  rw [hfil, Finset.card_singleton]

theorem G_sentinel_count (m : Nat) (hm : m % 2 = 1) :
    ∑ r ∈ Finset.range m,
      ((Finset.range ((m + 1) / 2)).filter (fun i => (G m r i).2 = m)).card
      = m := by
  rw [Finset.sum_congr rfl
    (fun r hr => G_sentinel_row m r hm (Finset.mem_range.mp hr))]
  rw [Finset.sum_const, Finset.card_range, smul_eq_mul, mul_one]

/-! ### From lists of rounds to Finset counts -/

theorem countP_range (p : Nat → Bool) (C : Nat) :
    (List.range C).countP p =
      ((Finset.range C).filter (fun i => p i = true)).card := by
  induction C with
  | zero => simp
  | succ c ih =>
    rw [List.range_succ, List.countP_append, Finset.range_succ,
      Finset.filter_insert]
    by_cases hc : p c = true
    · rw [if_pos hc, Finset.card_insert_of_not_mem (by simp), ← ih]
      simp [List.countP_cons, hc]
    · rw [if_neg hc, ← ih]
      simp [List.countP_cons, hc]

theorem sum_list_range (h : Nat → Nat) (R : Nat) :
    ((List.range R).map h).sum = ∑ r ∈ Finset.range R, h r := by
  induction R with
  | zero => simp
  | succ n ih =>
    rw [List.range_succ, List.map_append, List.sum_append,
      Finset.sum_range_succ, ih]
    simp

theorem countP_flatten_sched {β : Type} (g : Nat → Nat → β) (Q : β → Bool)
    (R C : Nat) :
    (((List.range R).map
        (fun r => (List.range C).map (fun i => g r i))).flatten).countP Q =
      ∑ r ∈ Finset.range R,
        ((Finset.range C).filter (fun i => Q (g r i) = true)).card := by
  rw [List.countP_flatten, List.map_map]
  have hfn : (List.countP Q ∘ fun r => (List.range C).map (fun i => g r i)) =
      fun r => ((Finset.range C).filter (fun i => Q (g r i) = true)).card := by
    funext r
    simp only [Function.comp]
    rw [List.countP_map]
    exact countP_range (fun i => Q (g r i)) C
  rw [hfn, sum_list_range]

theorem length_flatten_sched {β : Type} (g : Nat → Nat → β) (R C : Nat) :
    (((List.range R).map
        (fun r => (List.range C).map (fun i => g r i))).flatten).length =
      R * C := by
  rw [List.length_flatten, List.map_map]
  have hfn : (List.length ∘ fun r => (List.range C).map (fun i => g r i)) =
      fun _ => C := by
    funext r
    simp
  rw [hfn, sum_list_range]
  rw [Finset.sum_const, Finset.card_range, smul_eq_mul]

/-! ### The arrangement formula and roster facts -/

theorem arr_getD (first : Option α) (others : List (Option α)) (r j : Nat)
    (hm : 1 ≤ others.length) (hj : j ≤ others.length) :
    (first :: others.rotate r).getD j none =
      (first :: others).getD (sigma_idx others.length r j) none := by
  match j with
  | 0 => simp [sigma_idx]
  | j' + 1 =>
    rw [show sigma_idx others.length r (j' + 1) =
        (j' + r) % others.length + 1 by
      unfold sigma_idx
      rw [if_neg (Nat.succ_ne_zero j')]
      simp only [Nat.add_sub_cancel]
      omega]
    rw [List.getD_cons_succ, List.getD_cons_succ]
    rw [List.getD_eq_getElem?_getD, List.getD_eq_getElem?_getD]
    rw [List.getElem?_rotate (by omega : j' < others.length)]

theorem padded_nodup (l : List α) (h : l.Nodup) : (padded l).Nodup := by
  unfold padded
  rw [List.nodup_append]
  refine ⟨h.map (Option.some_injective α), ?_, ?_⟩
  · split_ifs <;> simp
  · intro x hx
    split_ifs
    · simp only [List.mem_singleton]
      rw [List.mem_map] at hx
      obtain ⟨a, _, ha⟩ := hx
      rw [← ha]
      simp
    · simp

theorem padded_length_odd (l : List α) (hodd : l.length % 2 = 1) :
    (padded l).length = l.length + 1 := by
  simp [padded, hodd]

theorem padded_length_even (l : List α) (heven : l.length % 2 = 0) :
    (padded l).length = l.length := by
  simp [padded]
  omega

theorem padded_getD_isSome (l : List α) (k : Nat) (hk : k < l.length) :
    ((padded l).getD k none).isSome = true := by
  unfold padded
  rw [List.getD_eq_getElem?_getD, List.getElem?_append,
    if_pos (by simp [hk] : k < (l.map some).length),
    List.getElem?_map, List.getElem?_eq_getElem hk]
  simp

theorem padded_mem_index (l : List α) (a : α) (ha : a ∈ l) :
    ∃ k, k < l.length ∧ (padded l).getD k none = some a := by
  obtain ⟨k, hk, hget⟩ := List.mem_iff_getElem.mp ha
  refine ⟨k, hk, ?_⟩
  unfold padded
  rw [List.getD_eq_getElem?_getD, List.getElem?_append,
    if_pos (by simp [hk] : k < (l.map some).length),
    List.getElem?_map, List.getElem?_eq_getElem hk]
  simp [hget]

theorem padded_getD_last_odd (l : List α) (hodd : l.length % 2 = 1) :
    (padded l).getD l.length none = none := by
  unfold padded
  rw [if_pos hodd, List.getD_eq_getElem?_getD,
    List.getElem?_append_right (by simp)]
  simp

theorem getD_inj_of_nodup (ps : List (Option α)) (h : ps.Nodup) (j k : Nat)
    (hj : j < ps.length) (hk : k < ps.length)
    (heq : ps.getD j none = ps.getD k none) : j = k := by
  rw [List.getD_eq_getElem?_getD, List.getD_eq_getElem?_getD,
    List.getElem?_eq_getElem hj, List.getElem?_eq_getElem hk] at heq
  simp only [Option.getD_some] at heq
  exact (h.getElem_inj_iff).mp heq

theorem rr_sched_cons (first : Option α) (others : List (Option α)) :
    rr_sched (first :: others) =
      (List.range others.length).map (fun r =>
        (List.range ((others.length + 1) / 2)).map
          (fun i => ((first :: others.rotate r).getD i none,
            (first :: others.rotate r).getD (others.length - i) none))) := by
  simp only [rr_sched, List.length_cons, List.length_rotate, Nat.add_sub_cancel]

theorem sched_countP (first : Option α) (others : List (Option α))
    (hm : 1 ≤ others.length) (Q : Option α × Option α → Bool) :
    ((rr_sched (first :: others)).flatten).countP Q =
      ∑ r ∈ Finset.range others.length,
        ((Finset.range ((others.length + 1) / 2)).filter (fun i =>
          Q ((first :: others).getD (sigma_idx others.length r i) none,
             (first :: others).getD
               (sigma_idx others.length r (others.length - i)) none) =
            true)).card := by
  rw [rr_sched_cons]
  rw [countP_flatten_sched
    (fun r i => ((first :: others.rotate r).getD i none,
      (first :: others.rotate r).getD (others.length - i) none)) Q
    others.length ((others.length + 1) / 2)]
  apply Finset.sum_congr rfl
  intro r hr
  congr 1
  apply Finset.filter_congr
  intro i hi
  rw [Finset.mem_range] at hi
  rw [arr_getD first others r i hm (by omega),
    arr_getD first others r (others.length - i) hm (by omega)]

theorem sched_length (first : Option α) (others : List (Option α)) :
    ((rr_sched (first :: others)).flatten).length =
      others.length * ((others.length + 1) / 2) := by
  rw [rr_sched_cons]
  exact length_flatten_sched
    (fun r i => ((first :: others.rotate r).getD i none,
      (first :: others.rotate r).getD (others.length - i) none))
    others.length ((others.length + 1) / 2)

/-- The two roster indices of one circle-method match are distinct. -/
theorem comps_ne (m r i : Nat) (hm : m % 2 = 1) (hr : r < m)
    (hi : i < (m + 1) / 2) :
    sigma_idx m r i ≠ sigma_idx m r (m - i) := by
  obtain ⟨hu, hv⟩ := comps_spec m r i hm hr hi
  omega

/-- The normalised pair ends in `m` exactly when one of the two roster
indices is `m`. -/
theorem G_snd_iff (m r i : Nat) (hm1 : 1 ≤ m) :
    (G m r i).2 = m ↔
      (sigma_idx m r i = m ∨ sigma_idx m r (m - i) = m) := by
  have hu := sigma_idx_lt m r i hm1
  have hv := sigma_idx_lt m r (m - i) hm1
  simp only [G, circle_pair, normPair]
  split_ifs <;> simp only [] <;> omega

/-- Core pair-count: in a schedule over a nodup even-length roster
`first :: others`, every unordered pair of two distinct roster positions
is played exactly once. -/
theorem sched_pair_count (first : Option α) (others : List (Option α))
    (hnd : (first :: others).Nodup) (hodd : others.length % 2 = 1)
    (pa pb : Nat) (hpa : pa < others.length + 1)
    (hpb : pb < others.length + 1) (hne : pa ≠ pb) :
    ((rr_sched (first :: others)).flatten).countP
      (fun pr => decide
        (pr = ((first :: others).getD pa none,
               (first :: others).getD pb none) ∨
         pr = ((first :: others).getD pb none,
               (first :: others).getD pa none))) = 1 := by
  have hm : 1 ≤ others.length := by omega
  rw [sched_countP first others hm]
  have hnplt : (normPair (pa, pb)).1 < (normPair (pa, pb)).2 ∧
      (normPair (pa, pb)).2 < others.length + 1 := by
    simp only [normPair]
    split_ifs <;> constructor <;> simp only [] <;> omega
  have hkey : ∀ r ∈ Finset.range others.length,
      ((Finset.range ((others.length + 1) / 2)).filter (fun i =>
        decide
          ((((first :: others).getD (sigma_idx others.length r i) none,
             (first :: others).getD
               (sigma_idx others.length r (others.length - i)) none)) =
              ((first :: others).getD pa none,
               (first :: others).getD pb none) ∨
           (((first :: others).getD (sigma_idx others.length r i) none,
             (first :: others).getD
               (sigma_idx others.length r (others.length - i)) none)) =
              ((first :: others).getD pb none,
               (first :: others).getD pa none)) = true)).card =
      ((Finset.range ((others.length + 1) / 2)).filter (fun i =>
        G others.length r i = normPair (pa, pb))).card := by
    intro r hr
    rw [Finset.mem_range] at hr
    congr 1
    apply Finset.filter_congr
    intro i hi
    rw [Finset.mem_range] at hi
    have hult := sigma_idx_lt others.length r i hm
    have hvlt := sigma_idx_lt others.length r (others.length - i) hm
    have huv := comps_ne others.length r i hodd hr hi
    have hpslen : pa < (first :: others).length ∧
        pb < (first :: others).length ∧
        sigma_idx others.length r i < (first :: others).length ∧
        sigma_idx others.length r (others.length - i) <
          (first :: others).length := by
      simp only [List.length_cons]
      omega
    rw [decide_eq_true_eq]
    constructor
    · rintro (heq | heq) <;> rw [Prod.mk.injEq] at heq <;>
        obtain ⟨h1, h2⟩ := heq
      · rw [G, circle_pair,
          getD_inj_of_nodup _ hnd _ _ hpslen.2.2.1 hpslen.1 h1,
          getD_inj_of_nodup _ hnd _ _ hpslen.2.2.2 hpslen.2.1 h2]
      · rw [G, circle_pair,
          getD_inj_of_nodup _ hnd _ _ hpslen.2.2.1 hpslen.2.1 h1,
          getD_inj_of_nodup _ hnd _ _ hpslen.2.2.2 hpslen.1 h2]
        exact normPair_swap pb pa
    · intro hG
      rw [G, circle_pair] at hG
      rcases normPair_cases _ _ _ _ hG with ⟨h1, h2⟩ | ⟨h1, h2⟩
      · left
        rw [h1, h2]
      · right
        rw [h1, h2]
  rw [Finset.sum_congr rfl hkey]
  have := G_count_one others.length hodd (normPair (pa, pb)).1
    (normPair (pa, pb)).2 hnplt.2 hnplt.1
  rw [show ((normPair (pa, pb)).1, (normPair (pa, pb)).2) =
    normPair (pa, pb) from rfl] at this
  exact this

/-! ### From the option-pair schedule to the real match list -/

theorem countP_filterMap {β γ : Type} (f : β → Option γ) (p : γ → Bool)
    (l : List β) :
    (l.filterMap f).countP p =
      l.countP (fun x => ((f x).map p).getD false) := by
  induction l with
  | nil => rfl
  | cons x xs ih =>
    rw [List.filterMap_cons]
    cases hfx : f x with
    | none =>
      rw [List.countP_cons]
      simp [hfx, ih]
    | some y =>
      rw [List.countP_cons, List.countP_cons]
      simp [hfx, ih]

theorem length_filterMap {β γ : Type} (f : β → Option γ) (l : List β) :
    (l.filterMap f).length = l.countP (fun x => (f x).isSome) := by
  induction l with
  | nil => rfl
  | cons x xs ih =>
    rw [List.filterMap_cons]
    cases hfx : f x with
    | none =>
      rw [List.countP_cons]
      simp [hfx, ih]
    | some y =>
      rw [List.countP_cons]
      simp [hfx, ih]

theorem to_real_isSome (pr : Option α × Option α) :
    (to_real pr).isSome = (pr.1.isSome && pr.2.isSome) := by
  rcases pr with ⟨a | a, b | b⟩ <;> rfl

theorem to_real_pred (a b : α) (pr : Option α × Option α) :
    ((to_real pr).map (fun y => decide (y = (a, b) ∨ y = (b, a)))).getD false =
      decide (pr = (some a, some b) ∨ pr = (some b, some a)) := by
  rcases pr with ⟨x | x, y | y⟩ <;>
    simp [to_real, decide_eq_decide, Prod.mk.injEq]

/-- Claim C9: for every roster of at least two distinct players, the
circle-method scheduler produces exactly `N * (N - 1) / 2` real matches
(sentinel pairings excluded), and each unordered pair of two distinct
players occurs in exactly one match of the whole schedule. -/
theorem c9_round_robin (l : List α) (hnd : l.Nodup) (h2 : 2 ≤ l.length) :
    (rr_matches l).length = l.length * (l.length - 1) / 2 ∧
    ∀ a ∈ l, ∀ b ∈ l, a ≠ b → match_count (rr_matches l) a b = 1 := by
  obtain ⟨first, others, hps⟩ : ∃ f o, padded l = f :: o := by
    cases hp : padded l with
    | nil =>
      exfalso
      have hlen := congrArg List.length hp
      simp only [padded, List.length_append, List.length_map,
        List.length_nil] at hlen
      split_ifs at hlen <;> omega
    | cons f o => exact ⟨f, o, rfl⟩
  have hndps : (first :: others).Nodup := hps ▸ padded_nodup l hnd
  have hpslen : (padded l).length = others.length + 1 := by
    rw [hps]
    simp
  have hmodd : others.length % 2 = 1 := by
    by_cases hpar : l.length % 2 = 1
    · have := padded_length_odd l hpar
      omega
    · have := padded_length_even l (by omega)
      omega
  have hm1 : 1 ≤ others.length := by
    by_cases hpar : l.length % 2 = 1
    · have := padded_length_odd l hpar
      omega
    · have := padded_length_even l (by omega)
      omega
  have hNle : l.length ≤ others.length + 1 := by
    by_cases hpar : l.length % 2 = 1
    · have := padded_length_odd l hpar
      omega
    · have := padded_length_even l (by omega)
      omega
  constructor
  · -- length of the real match list
    show ((rr_sched (padded l)).flatten.filterMap to_real).length = _
    rw [hps, length_filterMap,
      show (fun x : Option α × Option α => (to_real x).isSome) =
        (fun x => x.1.isSome && x.2.isSome) from funext to_real_isSome,
      sched_countP first others hm1]
    by_cases hpar : l.length % 2 = 1
    · -- odd roster: one sentinel pairing per round
      have hmN : others.length = l.length := by
        have := padded_length_odd l hpar
        omega
      have hcongr : ∀ r ∈ Finset.range others.length,
          ((Finset.range ((others.length + 1) / 2)).filter (fun i =>
            (((first :: others).getD
                (sigma_idx others.length r i) none).isSome &&
             ((first :: others).getD
                (sigma_idx others.length r
                  (others.length - i)) none).isSome) = true)).card =
            (others.length + 1) / 2 - 1 := by
        intro r hr
        rw [Finset.mem_range] at hr
        have hiff : ∀ k, k < others.length + 1 →
            (((first :: others).getD k none).isSome = true ↔
              k ≠ others.length) := by
          intro k hk
          constructor
          · intro hs hkm
            subst hkm
            rw [← hps, hmN, padded_getD_last_odd l hpar] at hs
            simp at hs
          · intro hkm
            rw [← hps]
            exact padded_getD_isSome l k (by omega)
        have hstep : (Finset.range ((others.length + 1) / 2)).filter (fun i =>
            (((first :: others).getD
                (sigma_idx others.length r i) none).isSome &&
             ((first :: others).getD
                (sigma_idx others.length r
                  (others.length - i)) none).isSome) = true) =
            (Finset.range ((others.length + 1) / 2)).filter (fun i =>
              ¬((G others.length r i).2 = others.length)) := by
          apply Finset.filter_congr
          intro i hi
          rw [Finset.mem_range] at hi
          have hu := sigma_idx_lt others.length r i hm1
          have hv := sigma_idx_lt others.length r (others.length - i) hm1
          rw [Bool.and_eq_true, hiff _ hu, hiff _ hv,
            G_snd_iff others.length r i hm1]
          tauto
        rw [hstep]
        have hsplit := Finset.filter_card_add_filter_neg_card_eq_card
          (s := Finset.range ((others.length + 1) / 2))
          (p := fun i => (G others.length r i).2 = others.length)
        rw [G_sentinel_row others.length r hmodd hr, Finset.card_range]
          at hsplit
        omega
      rw [Finset.sum_congr rfl hcongr, Finset.sum_const, Finset.card_range,
        smul_eq_mul]
      have h1 : (others.length + 1) / 2 - 1 = (l.length - 1) / 2 := by omega
      rw [h1, hmN,
        Nat.mul_div_assoc l.length (show 2 ∣ (l.length - 1) from by omega)]
    · -- even roster: every pairing is real
      have hmN : others.length + 1 = l.length := by
        have := padded_length_even l (by omega)
        omega
      have hcongr : ∀ r ∈ Finset.range others.length,
          ((Finset.range ((others.length + 1) / 2)).filter (fun i =>
            (((first :: others).getD
                (sigma_idx others.length r i) none).isSome &&
             ((first :: others).getD
                (sigma_idx others.length r
                  (others.length - i)) none).isSome) = true)).card =
            (others.length + 1) / 2 := by
        intro r hr
        rw [Finset.filter_true_of_mem, Finset.card_range]
        intro i hi
        have hu := sigma_idx_lt others.length r i hm1
        have hv := sigma_idx_lt others.length r (others.length - i) hm1
        rw [Bool.and_eq_true, ← hps]
        exact ⟨padded_getD_isSome l _ (by omega),
          padded_getD_isSome l _ (by omega)⟩
      rw [Finset.sum_congr rfl hcongr, Finset.sum_const, Finset.card_range,
        smul_eq_mul]
      rw [Nat.mul_comm l.length (l.length - 1),
        Nat.mul_div_assoc (l.length - 1) (show 2 ∣ l.length from by omega),
        show (others.length + 1) / 2 = l.length / 2 from by omega,
        show others.length = l.length - 1 from by omega]
  · -- each unordered pair exactly once
    intro a ha b hb hab
    obtain ⟨pa, hpa, hpaeq⟩ := padded_mem_index l a ha
    obtain ⟨pb, hpb, hpbeq⟩ := padded_mem_index l b hb
    rw [hps] at hpaeq hpbeq
    have hpane : pa ≠ pb := by
      intro h
      apply hab
      rw [h, hpbeq] at hpaeq
      exact (Option.some_injective α hpaeq).symm
    show ((rr_sched (padded l)).flatten.filterMap to_real).countP _ = 1
    rw [hps, countP_filterMap,
      show (fun x : Option α × Option α =>
          ((to_real x).map
            (fun y => decide (y = (a, b) ∨ y = (b, a)))).getD false) =
        (fun pr => decide (pr = (some a, some b) ∨
          pr = (some b, some a))) from funext (to_real_pred a b)]
    have hcount := sched_pair_count first others hndps hmodd pa pb
      (by omega) (by omega) hpane
    simp only [hpaeq, hpbeq] at hcount
    exact hcount

/-- Claim C9 witness: the theorem applied to the three-player roster
`[0, 1, 2]` (sentinel inserted, three real matches, each pair once). -/
theorem c9_witness :
    ([0, 1, 2] : List Nat).Nodup ∧
    ((rr_matches ([0, 1, 2] : List Nat)).length = 3 * (3 - 1) / 2 ∧
      ∀ a ∈ ([0, 1, 2] : List Nat), ∀ b ∈ ([0, 1, 2] : List Nat), a ≠ b →
        match_count (rr_matches ([0, 1, 2] : List Nat)) a b = 1) :=
  ⟨by decide, c9_round_robin [0, 1, 2] (by decide) (by decide)⟩

end Tennis
